import Mathlib

/-!
Shallow embedding of `src/tokenizers/src/tokenizer/normalizer.rs`.

Strings are modelled as `List Char` (Rust iterates `chars()`; all public
indexing in the source is char-based except `slice_bytes`, which is modelled
with explicit UTF-8 sizes).  Code that can panic (index out of bounds,
`usize` underflow) is modelled as returning `Option`, with `none` standing
for abnormal termination.
-/

namespace Tokenizers

/-- Model of a value implementing `RangeBounds<usize>`: one bound. -/
inductive RBound where
  | unbounded : RBound
  | included : Nat → RBound
  | excluded : Nat → RBound
deriving DecidableEq

/-- Model of a `T : RangeBounds<usize> + Clone` value: a start and an end bound. -/
structure RangeBoundsU where
  lo : RBound
  hi : RBound
deriving DecidableEq

/-- `Range::into_full_range` (normalizer.rs lines 27-42): resolve a
possibly-unbounded range to a concrete half-open `[start, end)` given the
maximum length `max_len` of the relevant view. -/
def intoFullRange (r : RangeBoundsU) (maxLen : Nat) : Nat × Nat :=
  (match r.lo with
   | RBound.unbounded => 0
   | RBound.included i => i
   | RBound.excluded i => i + 1,
   match r.hi with
   | RBound.unbounded => maxLen
   | RBound.included i => i + 1
   | RBound.excluded i => i)

/-- A concrete Rust `std::ops::Range<usize>` `p.1..p.2` viewed as bounds. -/
def ofPair (p : Nat × Nat) : RangeBoundsU :=
  ⟨RBound.included p.1, RBound.excluded p.2⟩

/-- The tagged referential `Range` enum (normalizer.rs lines 7-10). -/
inductive Range where
  | original : RangeBoundsU → Range
  | normalized : RangeBoundsU → Range
deriving DecidableEq

/-- `NormalizedString` (normalizer.rs lines 52-61). -/
structure NormalizedString where
  original : List Char
  normalized : List Char
  alignments : List (Nat × Nat)
deriving DecidableEq

/-- `NormalizedString::from` (lines 65-71). -/
def NormalizedString.fromStr (s : List Char) : NormalizedString :=
  { original := s
    normalized := s
    alignments := (List.range s.length).map (fun v => (v, v + 1)) }

/-- `NormalizedString::len` (lines 464-466): char count of `normalized`. -/
def NormalizedString.len (ns : NormalizedString) : Nat :=
  ns.normalized.length

/-- `NormalizedString::len_original` (lines 469-471). -/
def NormalizedString.len_original (ns : NormalizedString) : Nat :=
  ns.original.length

/-- `NormalizedString::is_empty` (lines 474-476). -/
def NormalizedString.is_empty (ns : NormalizedString) : Bool :=
  ns.normalized.isEmpty

/-- `NormalizedString::get` (lines 74-76). -/
def NormalizedString.get (ns : NormalizedString) : List Char :=
  ns.normalized

/-- `NormalizedString::get_original` (lines 79-81). -/
def NormalizedString.get_original (ns : NormalizedString) : List Char :=
  ns.original

/-- Rust slice indexing `l.get(s..e)` on a `Vec`/slice: `none` iff `s > e`
or `e > l.len()`, otherwise the subslice. -/
def sliceGet (l : List (Nat × Nat)) (s e : Nat) : Option (List (Nat × Nat)) :=
  if s ≤ e ∧ e ≤ l.length then some ((l.drop s).take (e - s)) else none

/-- The `for_each` body of the `Original` branch of `convert_offsets`
(lines 97-104): update `(start, end)` from the enumerated alignment `p`. -/
def csStep (frs fre : Nat) (acc : Nat × Nat) (p : Nat × (Nat × Nat)) : Nat × Nat :=
  (if p.2.1 ≤ frs then p.1 else acc.1,
   if p.2.2 ≤ fre then p.1 + 1 else acc.2)

/-- `NormalizedString::convert_offsets` (lines 85-121). -/
def NormalizedString.convert_offsets (ns : NormalizedString) (range : Range) :
    Option (Nat × Nat) :=
  match range with
  | Range.original r =>
    let maxLen := ((ns.alignments.getLast?).map Prod.snd).getD 0
    let fr := intoFullRange r maxLen
    some (((ns.alignments.enum.takeWhile (fun p => p.2.2 ≤ fr.2)).foldl
      (csStep fr.1 fr.2) (0, 0)))
  | Range.normalized r =>
    let fr := intoFullRange r ns.alignments.length
    match sliceGet ns.alignments fr.1 fr.2 with
    | none => none
    | some sub =>
      match sub with
      | [] => none
      | a :: rest => some (a.1, (((a :: rest).getLast?).map Prod.snd).getD 0)

/-- `get_range_of` (lines 480-508): char-indexed substring extraction.  The
source resolves the bounds against the char count, rejects
`start >= len || end > len || start >= end`, and otherwise slices at the
byte offsets of the two char boundaries, which at the char level is
`(drop start).take (end - start)`. -/
def get_range_of (s : List Char) (r : RangeBoundsU) : Option (List Char) :=
  let len := s.length
  let fr := intoFullRange r len
  if len ≤ fr.1 ∨ len < fr.2 ∨ fr.2 ≤ fr.1 then none
  else some ((s.drop fr.1).take (fr.2 - fr.1))

/-- `NormalizedString::get_range` (lines 124-135). -/
def NormalizedString.get_range (ns : NormalizedString) (range : Range) :
    Option (List Char) :=
  match range with
  | Range.original _ =>
    (ns.convert_offsets range).bind (fun r => get_range_of ns.normalized (ofPair r))
  | Range.normalized r => get_range_of ns.normalized r

/-- `NormalizedString::get_range_original` (lines 138-149). -/
def NormalizedString.get_range_original (ns : NormalizedString) (range : Range) :
    Option (List Char) :=
  match range with
  | Range.original r => get_range_of ns.original r
  | Range.normalized _ =>
    (ns.convert_offsets range).bind (fun r => get_range_of ns.original (ofPair r))

/-- Alignment choice made for one output item of `transform`
(lines 239-251).  `idx` is the signed previous-index `index - offset`; in the
source a negative value wraps to a huge `usize` and every indexing with it
panics, which is modelled by `none`. -/
def pickAlign (prev : List (Nat × Nat)) (change : Int) (idx : Int) :
    Option (Nat × Nat) :=
  if 0 < change then
    if idx = 0 then some (0, 0)
    else if 1 ≤ idx then prev.get? (idx.toNat - 1)
    else none
  else if 0 ≤ idx then prev.get? idx.toNat
  else none

/-- The enumerated loop of `transform` (lines 234-255): walks the `dest`
stream carrying the running `index` and `offset`, producing the new
normalized chars and alignments, or `none` on a panicking index. -/
def transformGo (prev : List (Nat × Nat)) :
    List (Char × Int) → Nat → Int → Option (List Char × List (Nat × Nat))
  | [], _, _ => some ([], [])
  | (c, change) :: rest, index, offset =>
    match pickAlign prev change ((index : Int) - offset),
          transformGo prev rest (index + 1) (offset + change) with
    | some a, some (cs, als) => some (c :: cs, a :: als)
    | _, _ => none

/-- `NormalizedString::transform` (lines 232-258). -/
def NormalizedString.transform (ns : NormalizedString) (dest : List (Char × Int))
    (initial_offset : Nat) : Option NormalizedString :=
  (transformGo ns.alignments dest 0 (-(initial_offset : Int))).map
    (fun p => { ns with normalized := p.1, alignments := p.2 })

/-- The stateful closure mapped over the reversed chars in
`NormalizedString::filter` (lines 285-305): returns the collected
`Option (char, change)` items (still in reversed order) together with the
final `removed` counter. -/
def filterAux (keep : Char → Bool) : List Char → Nat → List (Option (Char × Int)) × Nat
  | [], removed => ([], removed)
  | c :: rest, removed =>
    if keep c then
      let item : Option (Char × Int) :=
        if 0 < removed then some (c, -(removed : Int)) else some (c, 0)
      let lr := filterAux keep rest 0
      (item :: lr.1, lr.2)
    else
      let lr := filterAux keep rest (removed + 1)
      (none :: lr.1, lr.2)

/-- `NormalizedString::filter` (lines 285-308). -/
def NormalizedString.filter (ns : NormalizedString) (keep : Char → Bool) :
    Option NormalizedString :=
  let lr := filterAux keep ns.normalized.reverse 0
  ns.transform (lr.1.reverse.filterMap id) lr.2

/-- `NormalizedString::prepend` (lines 311-316). -/
def NormalizedString.prepend (ns : NormalizedString) (s : List Char) :
    NormalizedString :=
  { ns with
    normalized := s ++ ns.normalized
    alignments := s.map (fun _ => ((0 : Nat), (0 : Nat))) ++ ns.alignments }

/-- `NormalizedString::append` (lines 319-324). -/
def NormalizedString.append (ns : NormalizedString) (s : List Char) :
    NormalizedString :=
  let last_offset := ((ns.alignments.getLast?).map (fun o => (o.2, o.2))).getD (0, 0)
  { ns with
    normalized := ns.normalized ++ s
    alignments := ns.alignments ++ s.map (fun _ => last_offset) }

/-- `NormalizedString::map` (lines 327-330). -/
def NormalizedString.map (ns : NormalizedString) (f : Char → Char) :
    NormalizedString :=
  { ns with normalized := ns.normalized.map f }

/-- The `(char, change)` stream built by `lowercase`/`uppercase`
(lines 339-360): each current char is expanded by the host case-folding
facility; the first expanded char carries change `0`, the following ones
carry change `1`. -/
def caseStream (expand : Char → List Char) (cs : List Char) : List (Char × Int) :=
  cs.flatMap (fun c => (expand c).enum.map (fun p => (p.2, if 0 < p.1 then (1 : Int) else 0)))

/-- `NormalizedString::lowercase` (lines 339-348). Modelled from the spec:
the per-character lower-casing expansion `to_lowercase` lives in the Rust
standard library, so it is taken as an arbitrary function `expand`. -/
def NormalizedString.lowercase (ns : NormalizedString) (expand : Char → List Char) :
    Option NormalizedString :=
  ns.transform (caseStream expand ns.normalized) 0

/-- `NormalizedString::uppercase` (lines 351-360). Modelled from the spec:
the per-character upper-casing expansion `to_uppercase` lives in the Rust
standard library, so it is taken as an arbitrary function `expand`. -/
def NormalizedString.uppercase (ns : NormalizedString) (expand : Char → List Char) :
    Option NormalizedString :=
  ns.transform (caseStream expand ns.normalized) 0

/-- `NormalizedString::lrstrip` (lines 427-461). Modelled from the spec for
the whitespace class: "whitespace is whatever the host Unicode facility
reports", so the char predicate `isWs` is a parameter. -/
def NormalizedString.lrstrip (ns : NormalizedString) (isWs : Char → Bool)
    (left right : Bool) : Option NormalizedString :=
  let leading_spaces := if left then (ns.normalized.takeWhile isWs).length else 0
  let trailing_spaces := if right then (ns.normalized.reverse.takeWhile isWs).length else 0
  if 0 < leading_spaces ∨ 0 < trailing_spaces then
    let transformation := ns.normalized.enum.filterMap (fun ic =>
      if ic.1 < leading_spaces ∨ ns.len - trailing_spaces ≤ ic.1 then none
      else if ic.1 = ns.len - trailing_spaces - 1 then
        some (ic.2, -(trailing_spaces : Int))
      else some (ic.2, (0 : Int)))
    ns.transform transformation leading_spaces
  else some ns

/-- `NormalizedString::lstrip` (lines 413-415). -/
def NormalizedString.lstrip (ns : NormalizedString) (isWs : Char → Bool) :
    Option NormalizedString :=
  ns.lrstrip isWs true false

/-- `NormalizedString::rstrip` (lines 418-420). -/
def NormalizedString.rstrip (ns : NormalizedString) (isWs : Char → Bool) :
    Option NormalizedString :=
  ns.lrstrip isWs false true

/-- `NormalizedString::strip` (lines 423-425). -/
def NormalizedString.strip (ns : NormalizedString) (isWs : Char → Bool) :
    Option NormalizedString :=
  ns.lrstrip isWs true true

/-- The per-entry shift applied by `slice` (lines 212-214):
`(start - shift, end - shift)` on `usize` underflows (panics) when a
component is smaller than the shift, modelled by `none`. -/
def shiftAligns : List (Nat × Nat) → Nat → Option (List (Nat × Nat))
  | [], _ => some []
  | p :: rest, shift =>
    if shift ≤ p.1 ∧ shift ≤ p.2 then
      (shiftAligns rest shift).map (fun l => (p.1 - shift, p.2 - shift) :: l)
    else none

/-- `NormalizedString::slice` (lines 188-216). -/
def NormalizedString.slice (ns : NormalizedString) (range : Range) :
    Option NormalizedString :=
  let r_original? : Option (Nat × Nat) :=
    match range with
    | Range.original r => some (intoFullRange r ns.len_original)
    | Range.normalized _ => ns.convert_offsets range
  let r_normalized? : Option (Nat × Nat) :=
    match range with
    | Range.original _ => ns.convert_offsets range
    | Range.normalized r => some (intoFullRange r ns.len)
  r_original?.bind (fun r_original =>
    r_normalized?.bind (fun r_normalized =>
      (get_range_of ns.original (ofPair r_original)).bind (fun original =>
        (get_range_of ns.normalized (ofPair r_normalized)).bind (fun normalized =>
          (sliceGet ns.alignments r_normalized.1 r_normalized.2).bind (fun als =>
            (shiftAligns als r_original.1).map (fun alignments =>
              { original := original
                normalized := normalized
                alignments := alignments }))))))

/-- Rust `char::len_utf8`. -/
def lenUtf8 (c : Char) : Nat := c.utf8Size

/-- Byte length of a string, as Rust `str::len`. -/
def byteLen (s : List Char) : Nat := (s.map lenUtf8).sum

/-- Rust `str::char_indices` starting at byte position `b`:
`(byte_index, char)` pairs. -/
def charIndices : List Char → Nat → List (Nat × Char)
  | [], _ => []
  | c :: rest, b => (b, c) :: charIndices rest (b + lenUtf8 c)

/-- The byte-to-char boundary scan of `slice_bytes` (lines 167-179):
enumerated `char_indices`, kept while the byte index is below `r.end`,
filtered to byte indices at or after `r.start`, folded to the optional char
`start`/`end` bounds. -/
def sliceBytesBounds (s : List Char) (r : Nat × Nat) : Option Nat × Option Nat :=
  (((charIndices s 0).enum.takeWhile (fun p => p.2.1 < r.2)).filter
      (fun p => r.1 ≤ p.2.1)).foldl
    (fun acc p =>
      (if p.2.1 = r.1 then some p.1 else acc.1,
       if p.2.1 + lenUtf8 p.2.2 = r.2 then some (p.1 + 1) else acc.2))
    (none, none)

/-- `NormalizedString::slice_bytes` (lines 152-185). -/
def NormalizedString.slice_bytes (ns : NormalizedString) (range : Range) :
    Option NormalizedString :=
  match range with
  | Range.original r =>
    match sliceBytesBounds ns.original (intoFullRange r (byteLen ns.original)) with
    | (some s, some e) => ns.slice (Range.original (ofPair (s, e)))
    | _ => none
  | Range.normalized r =>
    match sliceBytesBounds ns.normalized (intoFullRange r (byteLen ns.normalized)) with
    | (some s, some e) => ns.slice (Range.normalized (ofPair (s, e)))
    | _ => none

/-- `NormalizedString::split_off` (lines 365-397).  Rust mutates `self` to
the head and returns the tail; the embedding returns `(head, tail)`.  The
byte-offset folds of the source split the strings exactly at the computed
char positions, which at the char level is `take`/`drop`. -/
def NormalizedString.split_off (ns : NormalizedString) (at_ : Nat) :
    NormalizedString × NormalizedString :=
  if ns.len < at_ then (ns, NormalizedString.fromStr [])
  else
    let normalized_tail := ns.normalized.drop at_
    let normalized_head := ns.normalized.take at_
    let alignments_tail := ns.alignments.drop at_
    let alignments_head := ns.alignments.take at_
    let original_at := ((alignments_head.getLast?).map Prod.snd).getD 0
    let original_tail := ns.original.drop original_at
    let original_head := ns.original.take original_at
    ({ original := original_head
       normalized := normalized_head
       alignments := alignments_head },
     { original := original_tail
       normalized := normalized_tail
       alignments := alignments_tail })

/-- `NormalizedString::merge_with` (lines 400-410).  The shift
`self.len() - 1` underflows `usize` when `self.len() == 0`; that abnormal
case is modelled by `none`. -/
def NormalizedString.merge_with (ns other : NormalizedString) :
    Option NormalizedString :=
  if 1 ≤ ns.len then
    let len := ns.len - 1
    some { original := ns.original ++ other.original
           normalized := ns.normalized ++ other.normalized
           alignments := ns.alignments ++
             other.alignments.map (fun p => (p.1 + len, p.2 + len)) }
  else none

/-! ## The data-model invariants (spec section 3) and reachability -/

/-- Componentwise order on alignment entries; invariant 3 of the data model
is that the alignment list is a `Pairwise AlignLe` chain. -/
def AlignLe (a b : Nat × Nat) : Prop := a.1 ≤ b.1 ∧ a.2 ≤ b.2

instance (a b : Nat × Nat) : Decidable (AlignLe a b) :=
  inferInstanceAs (Decidable (_ ∧ _))

/-- Invariants 1-4 of the data model (spec section 3): the alignment table
has one entry per normalized char; every entry is a well-formed span into
`original`; entries are monotonically non-decreasing in both components.
Invariant 4 (zero-width entries `s = e` are permitted) is the absence of a
strictness requirement: the second conjunct only demands `p.1 ≤ p.2`. -/
def Invariants (ns : NormalizedString) : Prop :=
  ns.alignments.length = ns.normalized.length ∧
  (∀ p ∈ ns.alignments, p.1 ≤ p.2 ∧ p.2 ≤ ns.original.length) ∧
  ns.alignments.Pairwise AlignLe

instance (ns : NormalizedString) : Decidable (Invariants ns) :=
  inferInstanceAs (Decidable (_ ∧ _ ∧ _))

/-- Modelled from the spec (section 6): the external Unicode
normalization/case-folding engine emits `(char, change)` streams whose
change component is `+1`, `0`, or negative, never more than `1`. -/
def ValidStream (dest : List (Char × Int)) : Prop := ∀ p ∈ dest, p.2 ≤ 1

/-- Sum of the change components of a stream. -/
def sumChanges (l : List (Char × Int)) : Int := (l.map (fun p => p.2)).sum

/-- The previous-index `idx` the transform engine computes at output
position `k`: the running offset starts at `-initial_offset` and has been
incremented by each change seen so far, so
`idx = k + initial_offset - sum of the first k changes`. -/
def specIdx (dest : List (Char × Int)) (initial_offset : Nat) (k : Nat) : Int :=
  (k : Int) + (initial_offset : Int) - sumChanges (dest.take k)

/-! ## Reachability -/

/-- States reachable from `from(text)` by the public operations named in the
claim, with `merge_with` and the tail returned by `split_off` excluded (the
amended reading).  The stream arguments of `nfd`/`nfkd`/`nfc`/`nfkc` and the
case expansions of `lowercase`/`uppercase` come from external facilities and
are modelled from the spec as arbitrary valid inputs. -/
inductive Reachable : NormalizedString → Prop where
  | base (s : List Char) : Reachable (NormalizedString.fromStr s)
  | nfx {ns ns' : NormalizedString} (dest : List (Char × Int)) :
      Reachable ns → ValidStream dest → ns.transform dest 0 = some ns' →
      Reachable ns'
  | filter_step {ns ns' : NormalizedString} (keep : Char → Bool) :
      Reachable ns → ns.filter keep = some ns' → Reachable ns'
  | map_step {ns : NormalizedString} (f : Char → Char) :
      Reachable ns → Reachable (ns.map f)
  | lowercase_step {ns ns' : NormalizedString} (expand : Char → List Char) :
      Reachable ns → ns.lowercase expand = some ns' → Reachable ns'
  | uppercase_step {ns ns' : NormalizedString} (expand : Char → List Char) :
      Reachable ns → ns.uppercase expand = some ns' → Reachable ns'
  | prepend_step {ns : NormalizedString} (s : List Char) :
      Reachable ns → Reachable (ns.prepend s)
  | append_step {ns : NormalizedString} (s : List Char) :
      Reachable ns → Reachable (ns.append s)
  | lstrip_step {ns ns' : NormalizedString} (isWs : Char → Bool) :
      Reachable ns → ns.lstrip isWs = some ns' → Reachable ns'
  | rstrip_step {ns ns' : NormalizedString} (isWs : Char → Bool) :
      Reachable ns → ns.rstrip isWs = some ns' → Reachable ns'
  | strip_step {ns ns' : NormalizedString} (isWs : Char → Bool) :
      Reachable ns → ns.strip isWs = some ns' → Reachable ns'
  | slice_step {ns ns' : NormalizedString} (range : Range) :
      Reachable ns → ns.slice range = some ns' → Reachable ns'
  | slice_bytes_step {ns ns' : NormalizedString} (range : Range) :
      Reachable ns → ns.slice_bytes range = some ns' → Reachable ns'
  | split_off_head {ns : NormalizedString} (at_ : Nat) :
      Reachable ns → Reachable (ns.split_off at_).1

/-- States reachable by the public operations exactly as the claim lists
them: additionally through `merge_with` and through the tail value returned
by `split_off`. -/
inductive ReachableFull : NormalizedString → Prop where
  | base (s : List Char) : ReachableFull (NormalizedString.fromStr s)
  | nfx {ns ns' : NormalizedString} (dest : List (Char × Int)) :
      ReachableFull ns → ValidStream dest → ns.transform dest 0 = some ns' →
      ReachableFull ns'
  | filter_step {ns ns' : NormalizedString} (keep : Char → Bool) :
      ReachableFull ns → ns.filter keep = some ns' → ReachableFull ns'
  | map_step {ns : NormalizedString} (f : Char → Char) :
      ReachableFull ns → ReachableFull (ns.map f)
  | lowercase_step {ns ns' : NormalizedString} (expand : Char → List Char) :
      ReachableFull ns → ns.lowercase expand = some ns' → ReachableFull ns'
  | uppercase_step {ns ns' : NormalizedString} (expand : Char → List Char) :
      ReachableFull ns → ns.uppercase expand = some ns' → ReachableFull ns'
  | prepend_step {ns : NormalizedString} (s : List Char) :
      ReachableFull ns → ReachableFull (ns.prepend s)
  | append_step {ns : NormalizedString} (s : List Char) :
      ReachableFull ns → ReachableFull (ns.append s)
  | lstrip_step {ns ns' : NormalizedString} (isWs : Char → Bool) :
      ReachableFull ns → ns.lstrip isWs = some ns' → ReachableFull ns'
  | rstrip_step {ns ns' : NormalizedString} (isWs : Char → Bool) :
      ReachableFull ns → ns.rstrip isWs = some ns' → ReachableFull ns'
  | strip_step {ns ns' : NormalizedString} (isWs : Char → Bool) :
      ReachableFull ns → ns.strip isWs = some ns' → ReachableFull ns'
  | slice_step {ns ns' : NormalizedString} (range : Range) :
      ReachableFull ns → ns.slice range = some ns' → ReachableFull ns'
  | slice_bytes_step {ns ns' : NormalizedString} (range : Range) :
      ReachableFull ns → ns.slice_bytes range = some ns' → ReachableFull ns'
  | split_off_head {ns : NormalizedString} (at_ : Nat) :
      ReachableFull ns → ReachableFull (ns.split_off at_).1
  | split_off_tail {ns : NormalizedString} (at_ : Nat) :
      ReachableFull ns → ReachableFull (ns.split_off at_).2
  | merge_step {ns other ns' : NormalizedString} :
      ReachableFull ns → ReachableFull other → ns.merge_with other = some ns' →
      ReachableFull ns'

-- Sanity checks against the source's unit tests.
example :
    (NormalizedString.fromStr ['a', 'b']).alignments = [(0, 1), (1, 2)] := by decide

example :
    (NormalizedString.fromStr ['H', 'e', 'l', 'l', 'o']).transform
      [(' ', 1), ('H', 0), ('e', 0), ('l', 0), ('l', 0), ('o', 0), (' ', 1)] 0 =
    some { original := ['H', 'e', 'l', 'l', 'o'],
           normalized := [' ', 'H', 'e', 'l', 'l', 'o', ' '],
           alignments := [(0, 0), (0, 1), (1, 2), (2, 3), (3, 4), (4, 5), (4, 5)] } := by
  decide

-- `removed_chars` test: filter `n` out of a 7-char string.
example :
    (NormalizedString.fromStr ['e', 'l', 'e', 'g', 'a', 'n', 't']).filter
      (fun c => !(c == 'n')) =
    some { original := ['e', 'l', 'e', 'g', 'a', 'n', 't'],
           normalized := ['e', 'l', 'e', 'g', 'a', 't'],
           alignments := [(0, 1), (1, 2), (2, 3), (3, 4), (4, 5), (6, 7)] } := by
  decide

-- `prepend` test.
example :
    ((NormalizedString.fromStr ['t', 'h', 'e', 'r', 'e']).prepend
      ['H', 'e', 'y', ' ']).alignments =
    [(0, 0), (0, 0), (0, 0), (0, 0), (0, 1), (1, 2), (2, 3), (3, 4), (4, 5)] := by
  decide

example :
    ((NormalizedString.fromStr ['t', 'h', 'e', 'r', 'e']).prepend
      ['H', 'e', 'y', ' ']).convert_offsets (Range.normalized (ofPair (0, 4))) =
    some (0, 0) := by decide

-- `append` test.
example :
    ((NormalizedString.fromStr ['H', 'e', 'y']).append
      [' ', 't', 'h', 'e', 'r', 'e']).alignments =
    [(0, 1), (1, 2), (2, 3), (3, 3), (3, 3), (3, 3), (3, 3), (3, 3), (3, 3)] := by
  decide

-- `strip` test (on a short analogue).
example :
    (NormalizedString.fromStr [' ', ' ', 'H', 'i', ' ']).strip (fun c => c == ' ') =
    some { original := [' ', ' ', 'H', 'i', ' '],
           normalized := ['H', 'i'],
           alignments := [(2, 3), (3, 4)] } := by decide

-- `range_conversion` analogue: filter whitespace then look up a span.
example :
    ((NormalizedString.fromStr [' ', '_', 'H', 'i', '_', ' ']).filter
      (fun c => !(c == ' '))).map
      (fun n => n.convert_offsets (Range.original (ofPair (2, 4)))) =
    some (some (1, 3)) := by decide

-- `split_off`: head keeps `[0, at)`, tail gets the rest with absolute spans.
example :
    (NormalizedString.fromStr ['a', 'b']).split_off 1 =
    ({ original := ['a'], normalized := ['a'], alignments := [(0, 1)] },
     { original := ['b'], normalized := ['b'], alignments := [(1, 2)] }) := by decide

/-! ## Transform engine lemmas -/

theorem AlignLe.rfl (a : Nat × Nat) : AlignLe a a := ⟨Nat.le_refl _, Nat.le_refl _⟩

theorem AlignLe.trans {a b c : Nat × Nat} (h₁ : AlignLe a b) (h₂ : AlignLe b c) :
    AlignLe a c := ⟨Nat.le_trans h₁.1 h₂.1, Nat.le_trans h₁.2 h₂.2⟩

theorem pickAlign_some {prev : List (Nat × Nat)} {ch idx : Int} {a : Nat × Nat}
    (h : pickAlign prev ch idx = some a) :
    (0 < ch ∧ idx = 0 ∧ a = (0, 0)) ∨
    (0 < ch ∧ 1 ≤ idx ∧ prev.get? (idx.toNat - 1) = some a) ∨
    (ch ≤ 0 ∧ 0 ≤ idx ∧ prev.get? idx.toNat = some a) := by
  unfold pickAlign at h
  split_ifs at h with h1 h2 h3 h4
  · exact Or.inl ⟨h1, h2, (Option.some_inj.mp h).symm⟩
  · exact Or.inr (Or.inl ⟨h1, h3, h⟩)
  · exact Or.inr (Or.inr ⟨Int.not_lt.mp h1, h4, h⟩)

theorem transformGo_lengths {prev : List (Nat × Nat)} :
    ∀ (dest : List (Char × Int)) (index : Nat) (offset : Int)
      (cs : List Char) (als : List (Nat × Nat)),
      transformGo prev dest index offset = some (cs, als) →
      cs.length = dest.length ∧ als.length = dest.length := by
  intro dest
  induction dest with
  | nil =>
    intro index offset cs als h
    simp only [transformGo, Option.some_inj] at h
    obtain ⟨rfl, rfl⟩ : cs = [] ∧ als = [] := by
      constructor <;> [exact (congrArg Prod.fst h).symm; exact (congrArg Prod.snd h).symm]
    simp
  | cons p rest ih =>
    intro index offset cs als h
    obtain ⟨c, change⟩ := p
    simp only [transformGo] at h
    cases hpick : pickAlign prev change ((index : Int) - offset) with
    | none => rw [hpick] at h; exact absurd h (by simp)
    | some a =>
      rw [hpick] at h
      cases hrec : transformGo prev rest (index + 1) (offset + change) with
      | none => rw [hrec] at h; exact absurd h (by simp)
      | some q =>
        rw [hrec] at h
        obtain ⟨cs', als'⟩ := q
        simp only [Option.some_inj] at h
        have hcs : cs = c :: cs' := (congrArg Prod.fst h).symm
        have hals : als = a :: als' := (congrArg Prod.snd h).symm
        obtain ⟨l1, l2⟩ := ih (index + 1) (offset + change) cs' als' hrec
        subst hcs hals
        simp [l1, l2]

theorem transformGo_cons_some {prev : List (Nat × Nat)} {c : Char} {change : Int}
    {rest : List (Char × Int)} {index : Nat} {offset : Int}
    {cs : List Char} {als : List (Nat × Nat)}
    (h : transformGo prev ((c, change) :: rest) index offset = some (cs, als)) :
    ∃ a cs' als',
      pickAlign prev change ((index : Int) - offset) = some a ∧
      transformGo prev rest (index + 1) (offset + change) = some (cs', als') ∧
      cs = c :: cs' ∧ als = a :: als' := by
  simp only [transformGo] at h
  cases hpick : pickAlign prev change ((index : Int) - offset) with
  | none => rw [hpick] at h; exact absurd h (by simp)
  | some a =>
    rw [hpick] at h
    cases hrec : transformGo prev rest (index + 1) (offset + change) with
    | none => rw [hrec] at h; exact absurd h (by simp)
    | some q =>
      rw [hrec] at h
      obtain ⟨cs', als'⟩ := q
      simp only [Option.some_inj] at h
      exact ⟨a, cs', als', rfl, rfl, (congrArg Prod.fst h).symm, (congrArg Prod.snd h).symm⟩

theorem transformGo_mem {prev : List (Nat × Nat)} :
    ∀ (dest : List (Char × Int)) (index : Nat) (offset : Int)
      (cs : List Char) (als : List (Nat × Nat)),
      transformGo prev dest index offset = some (cs, als) →
      ∀ a ∈ als, a = (0, 0) ∨ a ∈ prev := by
  intro dest
  induction dest with
  | nil =>
    intro index offset cs als h
    simp only [transformGo, Option.some_inj] at h
    have hals : als = [] := (congrArg Prod.snd h).symm
    subst hals
    intro a ha
    exact absurd ha (by simp)
  | cons p rest ih =>
    intro index offset cs als h
    obtain ⟨c, change⟩ := p
    obtain ⟨a, cs', als', hpick, hrec, rfl, rfl⟩ := transformGo_cons_some h
    intro b hb
    rcases List.mem_cons.mp hb with rfl | hb'
    · rcases pickAlign_some hpick with ⟨_, _, rfl⟩ | ⟨_, _, hg⟩ | ⟨_, _, hg⟩
      · exact Or.inl rfl
      · obtain ⟨hlt, hget⟩ := List.get?_eq_some.mp hg
        exact Or.inr (hget ▸ List.get_mem _ _ hlt)
      · obtain ⟨hlt, hget⟩ := List.get?_eq_some.mp hg
        exact Or.inr (hget ▸ List.get_mem _ _ hlt)
    · exact ih (index + 1) (offset + change) cs' als' hrec b hb'

theorem transformGo_mono {prev : List (Nat × Nat)} (hp : prev.Pairwise AlignLe) :
    ∀ (dest : List (Char × Int)) (index : Nat) (offset : Int)
      (cs : List Char) (als : List (Nat × Nat)),
      (∀ p ∈ dest, p.2 ≤ 1) →
      transformGo prev dest index offset = some (cs, als) →
      als.Pairwise AlignLe ∧
      (∀ a ∈ als, ∀ j : Nat, (j : Int) < (index : Int) - offset →
        ∀ hj : j < prev.length, AlignLe (prev.get ⟨j, hj⟩) a) := by
  intro dest
  induction dest with
  | nil =>
    intro index offset cs als _ h
    simp only [transformGo, Option.some_inj] at h
    have hals : als = [] := (congrArg Prod.snd h).symm
    subst hals
    exact ⟨List.Pairwise.nil, by intro a ha; exact absurd ha (by simp)⟩
  | cons p rest ih =>
    intro index offset cs als hv h
    obtain ⟨c, change⟩ := p
    obtain ⟨a, cs', als', hpick, hrec, rfl, rfl⟩ := transformGo_cons_some h
    have hv' : ∀ q ∈ rest, q.2 ≤ 1 := fun q hq => hv q (List.mem_cons_of_mem _ hq)
    have hch : change ≤ 1 := hv (c, change) (List.mem_cons_self _ _)
    obtain ⟨ihpw, ihlow⟩ := ih (index + 1) (offset + change) cs' als' hv' hrec
    have hidx' : ((index + 1 : Nat) : Int) - (offset + change) =
        ((index : Int) - offset) + 1 - change := by push_cast; ring
    rcases pickAlign_some hpick with ⟨hpos, hzero, rfl⟩ | ⟨hpos, hone, hg⟩ |
      ⟨hnonpos, hnonneg, hg⟩
    · -- insertion at the head: entry (0, 0)
      have hch1 : change = 1 := le_antisymm hch hpos
      constructor
      · exact List.pairwise_cons.mpr
          ⟨fun b _ => ⟨Nat.zero_le _, Nat.zero_le _⟩, ihpw⟩
      · intro b hb j hjlt hj
        rcases List.mem_cons.mp hb with rfl | hb'
        · exact absurd hjlt (by omega)
        · exact ihlow b hb' j (by rw [hidx']; omega) hj
    · -- insertion after a retained char: entry prev[idx - 1]
      have hch1 : change = 1 := le_antisymm hch hpos
      obtain ⟨hlt, hget⟩ := List.get?_eq_some.mp hg
      have hnext : ((index + 1 : Nat) : Int) - (offset + change) = (index : Int) - offset := by
        rw [hidx', hch1]; ring
      set idx : Int := (index : Int) - offset with hidxdef
      have htn : ((idx.toNat - 1 : Nat) : Int) < idx := by omega
      constructor
      · refine List.pairwise_cons.mpr ⟨fun b hb => ?_, ihpw⟩
        have := ihlow b hb (idx.toNat - 1) (by rw [hnext]; exact htn) hlt
        rw [hget] at this
        exact this
      · intro b hb j hjlt hj
        rcases List.mem_cons.mp hb with rfl | hb'
        · -- b = prev[idx - 1]: use monotonicity of prev up to idx - 1
          rcases Nat.lt_or_ge j (idx.toNat - 1) with hjj | hjj
          · have := List.pairwise_iff_get.mp hp ⟨j, hj⟩ ⟨idx.toNat - 1, hlt⟩ hjj
            rw [hget] at this
            exact this
          · have hje : (⟨j, hj⟩ : Fin prev.length) = ⟨idx.toNat - 1, hlt⟩ :=
              Fin.ext (show j = idx.toNat - 1 by omega)
            rw [hje, hget]
            exact AlignLe.rfl _
        · exact ihlow b hb' j (by rw [hnext]; exact hjlt) hj
    · -- retained or pre-deletion char: entry prev[idx]
      obtain ⟨hlt, hget⟩ := List.get?_eq_some.mp hg
      set idx : Int := (index : Int) - offset with hidxdef
      have hnlt : (idx.toNat : Int) < idx + 1 - change := by omega
      constructor
      · refine List.pairwise_cons.mpr ⟨fun b hb => ?_, ihpw⟩
        have := ihlow b hb idx.toNat (by rw [hidx']; exact hnlt) hlt
        rw [hget] at this
        exact this
      · intro b hb j hjlt hj
        rcases List.mem_cons.mp hb with rfl | hb'
        · have hjj : j < idx.toNat := by omega
          have := List.pairwise_iff_get.mp hp ⟨j, hj⟩ ⟨idx.toNat, hlt⟩ hjj
          rw [hget] at this
          exact this
        · exact ihlow b hb' j (by rw [hidx']; omega) hj

/-! ## Invariant preservation for each operation -/

theorem mem_alignLe_getLast? {l : List (Nat × Nat)} (hp : l.Pairwise AlignLe) :
    ∀ {a : Nat × Nat}, a ∈ l → ∃ z, l.getLast? = some z ∧ AlignLe a z := by
  induction l with
  | nil => intro a ha; exact absurd ha (by simp)
  | cons b rest ih =>
    intro a ha
    obtain ⟨hb, hrest⟩ := List.pairwise_cons.mp hp
    cases hr : rest with
    | nil =>
      subst hr
      have : a = b := by simpa using ha
      subst this
      exact ⟨a, rfl, AlignLe.rfl a⟩
    | cons y ys =>
      subst hr
      rcases List.mem_cons.mp ha with rfl | ha'
      · obtain ⟨z, hz, _⟩ := ih hrest (List.mem_cons_self y ys)
        have hzmem : z ∈ y :: ys := by
          have hne : (y :: ys) ≠ [] := by simp
          rw [List.getLast?_eq_getLast _ hne] at hz
          exact (Option.some_inj.mp hz) ▸ List.getLast_mem hne
        exact ⟨z, by rw [List.getLast?_cons_cons]; exact hz, hb z hzmem⟩
      · obtain ⟨z, hz, hle⟩ := ih hrest ha'
        exact ⟨z, by rw [List.getLast?_cons_cons]; exact hz, hle⟩

theorem transform_preserves {ns : NormalizedString} {dest : List (Char × Int)}
    {off : Nat} {ns' : NormalizedString} (h : Invariants ns) (hv : ValidStream dest)
    (ht : ns.transform dest off = some ns') : Invariants ns' := by
  unfold NormalizedString.transform at ht
  rw [Option.map_eq_some'] at ht
  obtain ⟨⟨cs, als⟩, hgo, rfl⟩ := ht
  obtain ⟨hl1, hl2⟩ := transformGo_lengths dest 0 _ cs als hgo
  refine ⟨by simp [hl1, hl2], ?_, ?_⟩
  · intro p hp
    rcases transformGo_mem dest 0 _ cs als hgo p hp with rfl | hmem
    · exact ⟨Nat.le_refl 0, Nat.zero_le _⟩
    · exact h.2.1 p hmem
  · exact (transformGo_mono h.2.2 dest 0 _ cs als hv hgo).1

theorem fromStr_invariants (s : List Char) :
    Invariants (NormalizedString.fromStr s) := by
  refine ⟨by simp [NormalizedString.fromStr], ?_, ?_⟩
  · intro p hp
    simp only [NormalizedString.fromStr, List.mem_map, List.mem_range] at hp
    obtain ⟨v, hv, rfl⟩ := hp
    exact ⟨Nat.le_succ _, hv⟩
  · refine List.Pairwise.map _ (fun a b hab => ⟨Nat.le_of_lt hab, by omega⟩)
      (List.pairwise_lt_range s.length)

theorem filterAux_valid (keep : Char → Bool) :
    ∀ (cs : List Char) (removed : Nat) (p : Char × Int),
      some p ∈ (filterAux keep cs removed).1 → p.2 ≤ 1 := by
  intro cs
  induction cs with
  | nil => intro removed p hp; exact absurd hp (by simp [filterAux])
  | cons c rest ih =>
    intro removed p hp
    by_cases hk : keep c
    · simp only [filterAux, hk, if_true] at hp
      rcases List.mem_cons.mp hp with heq | hp'
      · by_cases hr : 0 < removed
        · rw [if_pos hr] at heq
          obtain rfl : p = (c, -(removed : Int)) := Option.some_inj.mp heq
          show -(removed : Int) ≤ 1
          omega
        · rw [if_neg hr] at heq
          obtain rfl : p = (c, 0) := Option.some_inj.mp heq
          show (0 : Int) ≤ 1
          omega
      · exact ih 0 p hp'
    · simp only [filterAux, hk, if_false] at hp
      rcases List.mem_cons.mp hp with heq | hp'
      · exact absurd heq (by simp)
      · exact ih (removed + 1) p hp'

theorem filter_stream_valid (keep : Char → Bool) (cs : List Char) (r : Nat) :
    ValidStream ((filterAux keep cs r).1.reverse.filterMap id) := by
  intro p hp
  obtain ⟨o, ho, heq⟩ := List.mem_filterMap.mp hp
  have : some p ∈ (filterAux keep cs r).1 := by
    rw [← List.mem_reverse]; exact heq ▸ ho
  exact filterAux_valid keep cs r p this

theorem caseStream_valid (expand : Char → List Char) (cs : List Char) :
    ValidStream (caseStream expand cs) := by
  intro p hp
  simp only [caseStream, List.mem_flatMap, List.mem_map] at hp
  obtain ⟨c, _, q, _, rfl⟩ := hp
  by_cases h : 0 < q.1 <;> simp [h]

theorem lrstrip_stream_valid (ns : NormalizedString) (leading trailing : Nat) :
    ValidStream (ns.normalized.enum.filterMap (fun ic =>
      if ic.1 < leading ∨ ns.len - trailing ≤ ic.1 then none
      else if ic.1 = ns.len - trailing - 1 then some (ic.2, -(trailing : Int))
      else some (ic.2, (0 : Int)))) := by
  intro p hp
  obtain ⟨a, _, heq⟩ := List.mem_filterMap.mp hp
  split_ifs at heq with h1 h2
  · obtain rfl : p = (a.2, -(trailing : Int)) := (Option.some_inj.mp heq).symm
    show -(trailing : Int) ≤ 1
    omega
  · obtain rfl : p = (a.2, (0 : Int)) := (Option.some_inj.mp heq).symm
    show (0 : Int) ≤ 1
    omega

theorem map_preserves {ns : NormalizedString} (h : Invariants ns) (f : Char → Char) :
    Invariants (ns.map f) := by
  refine ⟨?_, h.2.1, h.2.2⟩
  simp only [NormalizedString.map, List.length_map]
  exact h.1

theorem pairwise_zero_entries (s : List Char) :
    (s.map (fun _ => ((0 : Nat), (0 : Nat)))).Pairwise AlignLe := by
  induction s with
  | nil => simp
  | cons c rest ih =>
    simp only [List.map_cons, List.pairwise_cons]
    exact ⟨fun b _ => ⟨Nat.zero_le _, Nat.zero_le _⟩, ih⟩

theorem prepend_preserves {ns : NormalizedString} (h : Invariants ns) (s : List Char) :
    Invariants (ns.prepend s) := by
  refine ⟨?_, ?_, ?_⟩
  · simp only [NormalizedString.prepend, List.length_append, List.length_map]
    exact congrArg (s.length + ·) h.1
  · intro p hp
    simp only [NormalizedString.prepend, List.mem_append, List.mem_map] at hp
    rcases hp with ⟨_, _, rfl⟩ | hmem
    · exact ⟨Nat.le_refl 0, Nat.zero_le _⟩
    · exact h.2.1 p hmem
  · simp only [NormalizedString.prepend]
    rw [List.pairwise_append]
    refine ⟨pairwise_zero_entries s, h.2.2, ?_⟩
    intro a ha b _
    obtain ⟨_, _, rfl⟩ := List.mem_map.mp ha
    exact ⟨Nat.zero_le _, Nat.zero_le _⟩

theorem getLast?_mem {α : Type} {l : List α} {z : α} (h : l.getLast? = some z) :
    z ∈ l := by
  cases l with
  | nil => exact absurd h (by simp)
  | cons y ys =>
    have hne : (y :: ys) ≠ [] := by simp
    rw [List.getLast?_eq_getLast _ hne] at h
    rw [← Option.some_inj.mp h]
    exact List.getLast_mem hne

theorem append_preserves {ns : NormalizedString} (h : Invariants ns) (s : List Char) :
    Invariants (ns.append s) := by
  have hconst : ∀ t : Nat × Nat, (s.map (fun _ => t)).Pairwise AlignLe := by
    intro t
    induction s with
    | nil => simp
    | cons c rest ih =>
      simp only [List.map_cons, List.pairwise_cons]
      exact ⟨fun b hb => by obtain ⟨_, _, rfl⟩ := List.mem_map.mp hb; exact AlignLe.rfl t, ih⟩
  set t := ((ns.alignments.getLast?).map (fun o => (o.2, o.2))).getD (0, 0) with ht
  have ht12 : t.1 = t.2 := by
    cases hg : ns.alignments.getLast? <;> simp [ht, hg]
  have ht2 : t.2 ≤ ns.original.length := by
    cases hg : ns.alignments.getLast? with
    | none => simp [ht, hg]
    | some z =>
      have hzmem : z ∈ ns.alignments := getLast?_mem hg
      have := (h.2.1 z hzmem).2
      simp [ht, hg, this]
  have hcross : ∀ a ∈ ns.alignments, AlignLe a t := by
    intro a ha
    obtain ⟨z, hz, hle⟩ := mem_alignLe_getLast? h.2.2 ha
    have h12 : a.1 ≤ a.2 := (h.2.1 a ha).1
    have htz : t = (z.2, z.2) := by simp [ht, hz]
    rw [htz]
    exact ⟨Nat.le_trans h12 hle.2, hle.2⟩
  refine ⟨?_, ?_, ?_⟩
  · simp only [NormalizedString.append, List.length_append, List.length_map]
    exact congrArg (· + s.length) h.1
  · intro p hp
    simp only [NormalizedString.append, List.mem_append, List.mem_map] at hp
    rcases hp with hmem | ⟨_, _, rfl⟩
    · exact h.2.1 p hmem
    · exact ⟨Nat.le_of_eq ht12, ht2⟩
  · simp only [NormalizedString.append]
    rw [List.pairwise_append]
    refine ⟨h.2.2, hconst _, ?_⟩
    intro a ha b hb
    obtain ⟨_, _, rfl⟩ := List.mem_map.mp hb
    exact hcross a ha

theorem split_off_head_preserves {ns : NormalizedString} (h : Invariants ns)
    (at_ : Nat) : Invariants (ns.split_off at_).1 := by
  by_cases hc : ns.len < at_
  · simpa [NormalizedString.split_off, hc] using h
  · simp only [NormalizedString.split_off, hc, if_false]
    have hpwt : (ns.alignments.take at_).Pairwise AlignLe :=
      h.2.2.sublist (List.take_sublist _ _)
    refine ⟨?_, ?_, hpwt⟩
    · simp only [List.length_take, h.1]
    · intro p hp
      have hmem : p ∈ ns.alignments := (List.take_sublist _ _).mem hp
      obtain ⟨hp12, hp2⟩ := h.2.1 p hmem
      obtain ⟨z, hz, hle⟩ := mem_alignLe_getLast? hpwt hp
      refine ⟨hp12, ?_⟩
      simp only [List.length_take]
      refine Nat.le_min.mpr ⟨?_, hp2⟩
      rw [hz]
      simpa using hle.2

/-! ## Slice lemmas -/

theorem intoFullRange_ofPair (p : Nat × Nat) (m : Nat) :
    intoFullRange (ofPair p) m = p := rfl

theorem intoFullRange_fst_eq (r : RangeBoundsU) (m m' : Nat) :
    (intoFullRange r m).1 = (intoFullRange r m').1 := by
  cases r with
  | mk lo hi => cases lo <;> rfl

theorem intoFullRange_snd_mono (r : RangeBoundsU) {m m' : Nat} (h : m ≤ m') :
    (intoFullRange r m).2 ≤ (intoFullRange r m').2 := by
  cases r with
  | mk lo hi => cases hi <;> simpa [intoFullRange]

theorem get_range_of_some {s : List Char} {r : RangeBoundsU} {o : List Char}
    (h : get_range_of s r = some o) :
    (intoFullRange r s.length).1 < s.length ∧
    (intoFullRange r s.length).2 ≤ s.length ∧
    (intoFullRange r s.length).1 < (intoFullRange r s.length).2 ∧
    o = (s.drop (intoFullRange r s.length).1).take
      ((intoFullRange r s.length).2 - (intoFullRange r s.length).1) ∧
    o.length = (intoFullRange r s.length).2 - (intoFullRange r s.length).1 := by
  simp only [get_range_of] at h
  split_ifs at h with hc
  push_neg at hc
  obtain ⟨h1, h2, h3⟩ := hc
  have ho : o = (s.drop (intoFullRange r s.length).1).take
      ((intoFullRange r s.length).2 - (intoFullRange r s.length).1) :=
    (Option.some_inj.mp h).symm
  refine ⟨h1, Nat.le_of_lt_succ (by omega), h3, ho, ?_⟩
  rw [ho]
  simp only [List.length_take, List.length_drop]
  omega

theorem sliceGet_some {l : List (Nat × Nat)} {s e : Nat} {sub : List (Nat × Nat)}
    (h : sliceGet l s e = some sub) :
    s ≤ e ∧ e ≤ l.length ∧ sub = (l.drop s).take (e - s) ∧ sub.length = e - s := by
  unfold sliceGet at h
  split_ifs at h with hc
  have hsub : sub = (l.drop s).take (e - s) := (Option.some_inj.mp h).symm
  refine ⟨hc.1, hc.2, hsub, ?_⟩
  rw [hsub]
  simp only [List.length_take, List.length_drop]
  omega

theorem sliceGet_sublist {l : List (Nat × Nat)} {s e : Nat} {sub : List (Nat × Nat)}
    (h : sliceGet l s e = some sub) : sub.Sublist l := by
  obtain ⟨_, _, hsub, _⟩ := sliceGet_some h
  rw [hsub]
  exact (List.take_sublist _ _).trans (List.drop_sublist _ _)

theorem sliceGet_get {l : List (Nat × Nat)} {s e : Nat} {sub : List (Nat × Nat)}
    (h : sliceGet l s e = some sub) :
    ∀ p ∈ sub, ∃ (i : Nat) (hi : i < l.length),
      s ≤ i ∧ i < e ∧ l.get ⟨i, hi⟩ = p := by
  obtain ⟨hse, hel, hsub, hlen⟩ := sliceGet_some h
  subst hsub
  intro p hp
  obtain ⟨⟨k, hk⟩, hget⟩ := List.mem_iff_get.mp hp
  have hk' : k < e - s := hlen ▸ hk
  have hi : s + k < l.length := by omega
  have hdl : k < (l.drop s).length := by rw [List.length_drop]; omega
  refine ⟨s + k, hi, Nat.le_add_right _ _, by omega, ?_⟩
  have hdrop : l.get ⟨s + k, hi⟩ = (l.drop s).get ⟨k, hdl⟩ := List.get_drop l hi
  have htake : (l.drop s).get ⟨k, hdl⟩ = ((l.drop s).take (e - s)).get ⟨k, hk⟩ :=
    List.get_take _ hdl hk'
  rw [hdrop, htake]
  exact hget

theorem shiftAligns_some :
    ∀ {l : List (Nat × Nat)} {shift : Nat} {l' : List (Nat × Nat)},
      shiftAligns l shift = some l' →
      (∀ p ∈ l, shift ≤ p.1 ∧ shift ≤ p.2) ∧
      l' = l.map (fun p => (p.1 - shift, p.2 - shift)) := by
  intro l
  induction l with
  | nil =>
    intro shift l' h
    simp only [shiftAligns, Option.some_inj] at h
    exact ⟨by intro p hp; exact absurd hp (by simp), by simp [← h]⟩
  | cons p rest ih =>
    intro shift l' h
    simp only [shiftAligns] at h
    split_ifs at h with hc
    rw [Option.map_eq_some'] at h
    obtain ⟨tl, htl, rfl⟩ := h
    obtain ⟨hall, hmap⟩ := ih htl
    refine ⟨?_, by simp [hmap]⟩
    intro q hq
    rcases List.mem_cons.mp hq with rfl | hq'
    · exact hc
    · exact hall q hq'

theorem csFold_end (frs fre : Nat) :
    ∀ (l : List (Nat × (Nat × Nat))) (acc : Nat × Nat),
      (l.foldl (csStep frs fre) acc).2 = acc.2 ∨
      ∃ q ∈ l, q.1 + 1 = (l.foldl (csStep frs fre) acc).2 ∧ q.2.2 ≤ fre := by
  intro l
  induction l with
  | nil => intro acc; exact Or.inl rfl
  | cons q rest ih =>
    intro acc
    rw [List.foldl_cons]
    rcases ih (csStep frs fre acc q) with heq | ⟨q', hq', hval, hle⟩
    · rw [heq]
      by_cases hc : q.2.2 ≤ fre
      · exact Or.inr ⟨q, List.mem_cons_self _ _, by simp [csStep, hc], hc⟩
      · exact Or.inl (by simp [csStep, hc])
    · exact Or.inr ⟨q', List.mem_cons_of_mem _ hq', hval, hle⟩

/-- The `Original => Normalized` scan of `convert_offsets` always succeeds,
and when the produced end index is positive, the alignment entry directly
before it fits inside the resolved query range. -/
theorem convert_original_end_bound {ns : NormalizedString} {r : RangeBoundsU}
    {s e : Nat} (h : ns.convert_offsets (Range.original r) = some (s, e))
    (h0 : 0 < e) :
    ∃ al, ns.alignments.get? (e - 1) = some al ∧
      al.2 ≤ (intoFullRange r
        (((ns.alignments.getLast?).map Prod.snd).getD 0)).2 := by
  simp only [NormalizedString.convert_offsets, Option.some_inj] at h
  set fr := intoFullRange r (((ns.alignments.getLast?).map Prod.snd).getD 0) with hfr
  set l := ns.alignments.enum.takeWhile (fun p => p.2.2 ≤ fr.2) with hl
  have he : e = (l.foldl (csStep fr.1 fr.2) (0, 0)).2 := by rw [h]
  rcases csFold_end fr.1 fr.2 l (0, 0) with heq | ⟨q, hq, hval, hle⟩
  · exact absurd (he.trans heq) (by omega)
  · have hqenum : q ∈ ns.alignments.enum := (List.takeWhile_sublist _).mem hq
    have hget : ns.alignments.get? q.1 = some q.2 := by
      have := List.mem_enum_iff_get?.mp (show (q.1, q.2) ∈ ns.alignments.enum by
        simpa using hqenum)
      simpa using this
    have hq1 : q.1 = e - 1 := by omega
    exact ⟨q.2, hq1 ▸ hget, hle⟩

/-- Inversion for the `Normalized => Original` direction of
`convert_offsets`. -/
theorem convert_normalized_some {ns : NormalizedString} {r : RangeBoundsU}
    {p : Nat × Nat} (h : ns.convert_offsets (Range.normalized r) = some p) :
    ∃ sub, sliceGet ns.alignments (intoFullRange r ns.alignments.length).1
        (intoFullRange r ns.alignments.length).2 = some sub ∧
      sub ≠ [] ∧ (∃ hd tl, sub = hd :: tl ∧ p.1 = hd.1) ∧
      ∃ z, sub.getLast? = some z ∧ p.2 = z.2 := by
  simp only [NormalizedString.convert_offsets] at h
  cases hsg : sliceGet ns.alignments (intoFullRange r ns.alignments.length).1
      (intoFullRange r ns.alignments.length).2 with
  | none => rw [hsg] at h; exact absurd h (by simp)
  | some sub =>
    rw [hsg] at h
    cases sub with
    | nil => exact absurd h (by simp)
    | cons a rest =>
      simp only [Option.some_inj] at h
      have hne : (a :: rest) ≠ [] := by simp
      obtain ⟨z, hz⟩ : ∃ z, (a :: rest).getLast? = some z :=
        ⟨(a :: rest).getLast hne, List.getLast?_eq_getLast _ hne⟩
      refine ⟨a :: rest, rfl, hne, ⟨a, rest, rfl, ?_⟩, z, hz, ?_⟩
      · rw [← h]
      · rw [← h]
        simp [hz]

/-- Assembling a sliced value preserves the invariants, provided every kept
alignment entry ends inside the kept original range. -/
theorem slice_assemble {ns : NormalizedString} (h : Invariants ns)
    {ro rn : Nat × Nat} {o n : List Char} {als als' : List (Nat × Nat)}
    (ho : get_range_of ns.original (ofPair ro) = some o)
    (hn : get_range_of ns.normalized (ofPair rn) = some n)
    (hals : sliceGet ns.alignments rn.1 rn.2 = some als)
    (hsh : shiftAligns als ro.1 = some als')
    (hbound : ∀ p ∈ als, p.2 ≤ ro.2) :
    Invariants { original := o, normalized := n, alignments := als' } := by
  obtain ⟨-, -, -, -, holen⟩ := get_range_of_some ho
  obtain ⟨-, -, -, -, hnlen⟩ := get_range_of_some hn
  rw [intoFullRange_ofPair] at holen hnlen
  obtain ⟨-, -, -, halslen⟩ := sliceGet_some hals
  obtain ⟨hunder, hmap⟩ := shiftAligns_some hsh
  have hpw : als.Pairwise AlignLe := h.2.2.sublist (sliceGet_sublist hals)
  refine ⟨?_, ?_, ?_⟩
  · show als'.length = n.length
    rw [hmap, List.length_map, halslen, hnlen]
  · intro p' hp'
    rw [hmap] at hp'
    obtain ⟨p, hpmem, rfl⟩ := List.mem_map.mp hp'
    have hin : p ∈ ns.alignments := (sliceGet_sublist hals).mem hpmem
    obtain ⟨h12, _⟩ := h.2.1 p hin
    refine ⟨Nat.sub_le_sub_right h12 _, ?_⟩
    show p.2 - ro.1 ≤ o.length
    rw [holen]
    exact Nat.sub_le_sub_right (hbound p hpmem) _
  · show als'.Pairwise AlignLe
    rw [hmap]
    exact hpw.map _ (fun a b hab =>
      ⟨Nat.sub_le_sub_right hab.1 _, Nat.sub_le_sub_right hab.2 _⟩)

theorem slice_preserves {ns : NormalizedString} (h : Invariants ns)
    {range : Range} {ns' : NormalizedString} (hs : ns.slice range = some ns') :
    Invariants ns' := by
  cases range with
  | original r =>
    simp only [NormalizedString.slice] at hs
    rw [Option.bind_eq_some] at hs
    obtain ⟨ro, hro, hs⟩ := hs
    rw [Option.bind_eq_some] at hs
    obtain ⟨rn, hrn, hs⟩ := hs
    rw [Option.bind_eq_some] at hs
    obtain ⟨o, ho, hs⟩ := hs
    rw [Option.bind_eq_some] at hs
    obtain ⟨n, hn, hs⟩ := hs
    rw [Option.bind_eq_some] at hs
    obtain ⟨als, hals, hs⟩ := hs
    rw [Option.map_eq_some'] at hs
    obtain ⟨als', hsh, rfl⟩ := hs
    obtain rfl : intoFullRange r ns.len_original = ro := Option.some_inj.mp hro
    refine slice_assemble h ho hn hals hsh ?_
    intro p hp
    obtain ⟨i, hi, hsi, hie, hgetp⟩ := sliceGet_get hals p hp
    have h0 : 0 < rn.2 := Nat.lt_of_le_of_lt (Nat.zero_le i) hie
    obtain ⟨al, halget, halle⟩ := convert_original_end_bound hrn h0
    obtain ⟨hallt, halval⟩ := List.get?_eq_some.mp halget
    have hile : p.2 ≤ al.2 := by
      rcases Nat.lt_or_ge i (rn.2 - 1) with hlt | hge
      · have := List.pairwise_iff_get.mp h.2.2 ⟨i, hi⟩ ⟨rn.2 - 1, hallt⟩ hlt
        rw [hgetp, halval] at this
        exact this.2
      · have hieq : i = rn.2 - 1 := by omega
        have : ns.alignments.get ⟨i, hi⟩ = ns.alignments.get ⟨rn.2 - 1, hallt⟩ :=
          congrArg ns.alignments.get (Fin.ext hieq)
        rw [hgetp, halval] at this
        exact Nat.le_of_eq (congrArg Prod.snd this)
    refine Nat.le_trans hile (Nat.le_trans halle ?_)
    -- the scan resolves against the last alignment end, which is at most
    -- the char count of `original`
    have hmax : (((ns.alignments.getLast?).map Prod.snd).getD 0) ≤ ns.original.length := by
      cases hg : ns.alignments.getLast? with
      | none => simp
      | some z =>
        have := (h.2.1 z (getLast?_mem hg)).2
        simpa using this
    exact intoFullRange_snd_mono r hmax
  | normalized r =>
    simp only [NormalizedString.slice] at hs
    rw [Option.bind_eq_some] at hs
    obtain ⟨ro, hro, hs⟩ := hs
    rw [Option.bind_eq_some] at hs
    obtain ⟨rn, hrn, hs⟩ := hs
    rw [Option.bind_eq_some] at hs
    obtain ⟨o, ho, hs⟩ := hs
    rw [Option.bind_eq_some] at hs
    obtain ⟨n, hn, hs⟩ := hs
    rw [Option.bind_eq_some] at hs
    obtain ⟨als, hals, hs⟩ := hs
    rw [Option.map_eq_some'] at hs
    obtain ⟨als', hsh, rfl⟩ := hs
    obtain rfl : intoFullRange r ns.len = rn := Option.some_inj.mp hrn
    refine slice_assemble h ho hn hals hsh ?_
    obtain ⟨sub, hsg, hne, ⟨hd, tl, hsubeq, hp1⟩, z, hz, hp2⟩ :=
      convert_normalized_some hro
    have hfr : intoFullRange r ns.alignments.length = intoFullRange r ns.len :=
      congrArg (intoFullRange r) h.1
    rw [hfr] at hsg
    obtain rfl : sub = als := Option.some_inj.mp (hsg.symm.trans hals)
    intro p hp
    obtain ⟨z', hz', hle⟩ := mem_alignLe_getLast?
      (h.2.2.sublist (sliceGet_sublist hals)) hp
    obtain rfl : z = z' := Option.some_inj.mp (hz.symm.trans hz')
    rw [hp2]
    exact hle.2

theorem slice_bytes_preserves {ns : NormalizedString} (h : Invariants ns)
    {range : Range} {ns' : NormalizedString}
    (hs : ns.slice_bytes range = some ns') : Invariants ns' := by
  cases range with
  | original r =>
    simp only [NormalizedString.slice_bytes] at hs
    rcases hb : sliceBytesBounds ns.original (intoFullRange r (byteLen ns.original)) with
      ⟨os, oe⟩
    rw [hb] at hs
    cases os with
    | none => exact absurd hs (by simp)
    | some s =>
      cases oe with
      | none => exact absurd hs (by simp)
      | some e => exact slice_preserves h hs
  | normalized r =>
    simp only [NormalizedString.slice_bytes] at hs
    rcases hb : sliceBytesBounds ns.normalized (intoFullRange r (byteLen ns.normalized)) with
      ⟨os, oe⟩
    rw [hb] at hs
    cases os with
    | none => exact absurd hs (by simp)
    | some s =>
      cases oe with
      | none => exact absurd hs (by simp)
      | some e => exact slice_preserves h hs

theorem lrstrip_preserves {ns : NormalizedString} {isWs : Char → Bool}
    {left right : Bool} {ns' : NormalizedString} (h : Invariants ns)
    (hs : ns.lrstrip isWs left right = some ns') : Invariants ns' := by
  simp only [NormalizedString.lrstrip] at hs
  split_ifs at hs <;>
    first
      | exact transform_preserves h (lrstrip_stream_valid ns _ _) hs
      | (rw [← Option.some_inj.mp hs]; exact h)

theorem filter_preserves {ns : NormalizedString} {keep : Char → Bool}
    {ns' : NormalizedString} (h : Invariants ns)
    (hs : ns.filter keep = some ns') : Invariants ns' := by
  simp only [NormalizedString.filter] at hs
  exact transform_preserves h (filter_stream_valid keep ns.normalized.reverse 0) hs

/-- C1 (amended): every state reachable from `from(text)` by the public
operations nfd, nfkd, nfc, nfkc, filter, map, lowercase, uppercase,
prepend, append, lstrip, rstrip, strip, slice, slice_bytes, and the
retained head of split_off — excluding the tail value returned by
split_off and excluding merge_with — satisfies invariants 1-4 of the data
model: the alignment count equals the char count of `normalized`, every
entry `(s, e)` satisfies `s ≤ e ≤ char_count(original)`, the entries are
monotonically non-decreasing in both components, and zero-width entries
are permitted. -/
theorem claim_C1 : ∀ ns : NormalizedString, Reachable ns → Invariants ns := by
  intro ns h
  induction h with
  | base s => exact fromStr_invariants s
  | nfx dest _ hv ht ih => exact transform_preserves ih hv ht
  | filter_step keep _ hs ih => exact filter_preserves ih hs
  | map_step f _ ih => exact map_preserves ih f
  | lowercase_step expand _ hs ih =>
    exact transform_preserves ih (caseStream_valid expand _) hs
  | uppercase_step expand _ hs ih =>
    exact transform_preserves ih (caseStream_valid expand _) hs
  | prepend_step s _ ih => exact prepend_preserves ih s
  | append_step s _ ih => exact append_preserves ih s
  | lstrip_step isWs _ hs ih => exact lrstrip_preserves ih hs
  | rstrip_step isWs _ hs ih => exact lrstrip_preserves ih hs
  | strip_step isWs _ hs ih => exact lrstrip_preserves ih hs
  | slice_step range _ hs ih => exact slice_preserves ih hs
  | slice_bytes_step range _ hs ih => exact slice_bytes_preserves ih hs
  | split_off_head at_ _ ih => exact split_off_head_preserves ih at_

/-- Witness for C1: a concrete reachable state satisfies the invariants. -/
theorem claim_C1_witness :
    Invariants ((NormalizedString.fromStr ['a', 'b']).prepend ['x']) :=
  claim_C1 _ (Reachable.prepend_step ['x'] (Reachable.base ['a', 'b']))

/-- Counterexample for C1 as stated: with the full operation list, both the
tail returned by `split_off` (which keeps absolute spans over a shortened
`original`, breaking invariant 2) and `merge_with` (whose `len() - 1` shift
breaks monotonicity, invariant 3) reach states violating the invariants. -/
theorem claim_C1_counterexample :
    (ReachableFull ⟨['b'], ['b'], [(1, 2)]⟩ ∧
      ¬ Invariants ⟨['b'], ['b'], [(1, 2)]⟩) ∧
    (ReachableFull ⟨['a', 'b', 'c', 'x'], ['c', 'x'], [(2, 3), (0, 1)]⟩ ∧
      ¬ Invariants ⟨['a', 'b', 'c', 'x'], ['c', 'x'], [(2, 3), (0, 1)]⟩) := by
  refine ⟨⟨?_, by decide⟩, ⟨?_, by decide⟩⟩
  · have h1 : ((NormalizedString.fromStr ['a', 'b']).split_off 1).2 =
        { original := ['b'], normalized := ['b'], alignments := [(1, 2)] } := by decide
    exact h1 ▸ ReachableFull.split_off_tail 1 (ReachableFull.base ['a', 'b'])
  · have hf : (NormalizedString.fromStr ['a', 'b', 'c']).filter (fun c => c == 'c') =
        some ⟨['a', 'b', 'c'], ['c'], [(2, 3)]⟩ := by decide
    have hm : (⟨['a', 'b', 'c'], ['c'], [(2, 3)]⟩ : NormalizedString).merge_with
          (NormalizedString.fromStr ['x']) =
        some ⟨['a', 'b', 'c', 'x'], ['c', 'x'], [(2, 3), (0, 1)]⟩ := by decide
    exact ReachableFull.merge_step
      (ReachableFull.filter_step (fun c => c == 'c') (ReachableFull.base ['a', 'b', 'c']) hf)
      (ReachableFull.base ['x']) hm

/-- C2: when it completes normally (`len() >= 1`, see C9), `merge_with`
concatenates `other.original` onto `self.original` and `other.normalized`
onto `self.normalized`, and extends the alignments with `other.alignments`
where each entry `(start, end)` is shifted by `self.len() - 1`, `self.len()`
being the char count of the pre-merge normalized text. -/
theorem claim_C2 : ∀ ns other : NormalizedString, 1 ≤ ns.len →
    ns.merge_with other =
      some ⟨ns.original ++ other.original,
            ns.normalized ++ other.normalized,
            ns.alignments ++ other.alignments.map
              (fun p => (p.1 + (ns.len - 1), p.2 + (ns.len - 1)))⟩ := by
  intro ns other h
  simp only [NormalizedString.merge_with, if_pos h]

/-- Witness for C2 at a concrete merge. -/
theorem claim_C2_witness :
    (NormalizedString.fromStr ['a']).merge_with (NormalizedString.fromStr ['b']) =
      some ⟨['a', 'b'], ['a', 'b'], [(0, 1), (0, 1)]⟩ := by
  rw [claim_C2 _ _ (by decide)]
  decide

/-- C6 (code bug): the source's doc comment says any positive change is
treated as `1`, but the code adds the raw change to `offset`.  With the
stream `[('x', 2), ('y', 0)]` over `from("ab")` the second index computation
underflows (panics), while the clamped stream `[('x', 1), ('y', 0)]`
completes with alignments `[(0,0), (0,1)]`. -/
theorem claim_C6 :
    (NormalizedString.fromStr ['a', 'b']).transform [('x', 2), ('y', 0)] 0 = none ∧
    (NormalizedString.fromStr ['a', 'b']).transform [('x', 1), ('y', 0)] 0 =
      some ⟨['a', 'b'], ['x', 'y'], [(0, 0), (0, 1)]⟩ := by decide

/-- C7: for `at > len()` the split is degenerate: `split_off` returns a
fresh empty value (empty original, normalized and alignments) and leaves
self completely unchanged. -/
theorem claim_C7 : ∀ (ns : NormalizedString) (at_ : Nat), ns.len < at_ →
    ns.split_off at_ = (ns, ⟨[], [], []⟩) := by
  intro ns at_ h
  simp [NormalizedString.split_off, h, NormalizedString.fromStr]

/-- Witness for C7 at a concrete degenerate split. -/
theorem claim_C7_witness :
    (NormalizedString.fromStr ['a']).split_off 5 =
      (NormalizedString.fromStr ['a'], ⟨[], [], []⟩) :=
  claim_C7 _ 5 (by decide)

/-- C9: `merge_with` completes normally exactly when `self.len() >= 1`; the
`self.len() - 1` shift underflows `usize` (abnormal termination, modelled as
`none`) exactly when the normalized text is empty. -/
theorem claim_C9 : ∀ ns other : NormalizedString,
    ns.merge_with other = none ↔ ns.len = 0 := by
  intro ns other
  by_cases h : 1 ≤ ns.len <;> simp [NormalizedString.merge_with, h] <;> omega

/-- C10: the `Original => Normalized` direction of `convert_offsets` always
returns a value computed by the alignment scan, for every state and every
original-referential range, out-of-bounds and empty ranges included. -/
theorem claim_C10 : ∀ (ns : NormalizedString) (r : RangeBoundsU),
    ∃ p, ns.convert_offsets (Range.original r) = some p := by
  intro ns r
  exact ⟨_, rfl⟩

/-- C8: `get_range_of` returns nothing exactly when, with `len` the char
count and `[cs, ce)` the resolved range, `cs ≥ len`, `ce > len`, or
`cs ≥ ce`; in every other case it returns the char slice `[cs, ce)` (the
byte offsets the source computes lie on exactly those char boundaries); in
particular an empty range `cs = ce` always yields nothing. -/
theorem claim_C8 : ∀ (s : List Char) (r : RangeBoundsU),
    (get_range_of s r = none ↔
      (s.length ≤ (intoFullRange r s.length).1 ∨
       s.length < (intoFullRange r s.length).2 ∨
       (intoFullRange r s.length).2 ≤ (intoFullRange r s.length).1)) ∧
    ((intoFullRange r s.length).1 < s.length →
      (intoFullRange r s.length).2 ≤ s.length →
      (intoFullRange r s.length).1 < (intoFullRange r s.length).2 →
      get_range_of s r = some ((s.drop (intoFullRange r s.length).1).take
        ((intoFullRange r s.length).2 - (intoFullRange r s.length).1))) ∧
    ((intoFullRange r s.length).1 = (intoFullRange r s.length).2 →
      get_range_of s r = none) := by
  intro s r
  refine ⟨?_, ?_, ?_⟩
  · simp only [get_range_of]
    split_ifs with hc
    · simpa using hc
    · simpa using hc
  · intro h1 h2 h3
    simp only [get_range_of]
    rw [if_neg (by omega)]
  · intro he
    simp only [get_range_of]
    rw [if_pos (by omega)]

/-- Witness for C8 at a concrete in-bounds range. -/
theorem claim_C8_witness :
    get_range_of ['a', 'b', 'c'] (ofPair (1, 3)) = some ['b', 'c'] := by
  have := (claim_C8 ['a', 'b', 'c'] (ofPair (1, 3))).2.1 (by decide) (by decide) (by decide)
  simpa using this

/-- C3 (amended): `prepend(s)` inserts `|s|` zero-width `(0, 0)` entries at
the head of the alignments and prepends `s` to `normalized`; `append(s)`
appends `|s|` entries `(t, t)` at the tail where `t` is the end of the last
alignment entry (or `0` when the table is empty) — not the char count of
`original` — and appends `s` to `normalized`; both leave `original`
unchanged. -/
theorem claim_C3 : ∀ (ns : NormalizedString) (s : List Char),
    (ns.prepend s).original = ns.original ∧
    (ns.prepend s).normalized = s ++ ns.normalized ∧
    (ns.prepend s).alignments =
      List.replicate s.length ((0 : Nat), (0 : Nat)) ++ ns.alignments ∧
    (ns.append s).original = ns.original ∧
    (ns.append s).normalized = ns.normalized ++ s ∧
    (ns.append s).alignments = ns.alignments ++
      List.replicate s.length
        (((ns.alignments.getLast?).map Prod.snd).getD 0,
         ((ns.alignments.getLast?).map Prod.snd).getD 0) := by
  intro ns s
  refine ⟨rfl, rfl, ?_, rfl, rfl, ?_⟩
  · simp only [NormalizedString.prepend]
    rw [List.map_const']
  · simp only [NormalizedString.append]
    rw [List.map_const']
    cases hg : ns.alignments.getLast? <;> simp [hg]

/-- Counterexample for C3 as stated: after a filter that drops the trailing
char of `"ab"`, `append` uses the last alignment end `1`, not
`char_count(original) = 2`. -/
theorem claim_C3_counterexample :
    ((NormalizedString.fromStr ['a', 'b']).filter (fun c => c == 'a')).map
        (fun x => (x.append ['x']).alignments) = some [(0, 1), (1, 1)] ∧
    ((NormalizedString.fromStr ['a', 'b']).filter (fun c => c == 'a')).map
        (fun x => (x.append ['x']).alignments) ≠ some [(0, 1), (2, 2)] := by
  decide

theorem transform_original {ns : NormalizedString} {dest : List (Char × Int)}
    {off : Nat} {ns' : NormalizedString} (h : ns.transform dest off = some ns') :
    ns'.original = ns.original := by
  unfold NormalizedString.transform at h
  rw [Option.map_eq_some'] at h
  obtain ⟨p, _, rfl⟩ := h
  rfl

/-- C4 (amended): no listed mutator other than `merge_with` changes
`original` — the transform-based mutators (nfd/nfkd/nfc/nfkc via their
streams, filter, lowercase, uppercase, lstrip/rstrip/strip), `map`,
`prepend` and `append` all preserve it — while `merge_with` appends
`other.original` to it; `convert_offsets`, `get_range` and
`get_range_original` are pure queries and return values without producing a
new state. -/
theorem claim_C4 : ∀ ns : NormalizedString,
    (∀ (dest : List (Char × Int)) (off : Nat) (ns' : NormalizedString),
      ns.transform dest off = some ns' → ns'.original = ns.original) ∧
    (∀ (keep : Char → Bool) (ns' : NormalizedString),
      ns.filter keep = some ns' → ns'.original = ns.original) ∧
    (∀ f : Char → Char, (ns.map f).original = ns.original) ∧
    (∀ (expand : Char → List Char) (ns' : NormalizedString),
      ns.lowercase expand = some ns' → ns'.original = ns.original) ∧
    (∀ (expand : Char → List Char) (ns' : NormalizedString),
      ns.uppercase expand = some ns' → ns'.original = ns.original) ∧
    (∀ s : List Char, (ns.prepend s).original = ns.original) ∧
    (∀ s : List Char, (ns.append s).original = ns.original) ∧
    (∀ (isWs : Char → Bool) (left right : Bool) (ns' : NormalizedString),
      ns.lrstrip isWs left right = some ns' → ns'.original = ns.original) ∧
    (∀ (other ns' : NormalizedString),
      ns.merge_with other = some ns' → ns'.original = ns.original ++ other.original) := by
  intro ns
  refine ⟨?_, ?_, fun f => rfl, ?_, ?_, fun s => rfl, fun s => rfl, ?_, ?_⟩
  · intro dest off ns' h
    exact transform_original h
  · intro keep ns' h
    simp only [NormalizedString.filter] at h
    exact transform_original h
  · intro expand ns' h
    exact transform_original h
  · intro expand ns' h
    exact transform_original h
  · intro isWs left right ns' h
    simp only [NormalizedString.lrstrip] at h
    split_ifs at h <;>
      first
        | exact transform_original h
        | rw [← Option.some_inj.mp h]
  · intro other ns' h
    simp only [NormalizedString.merge_with] at h
    split_ifs at h
    rw [← Option.some_inj.mp h]

/-- Witness for C4: a concrete filter leaves `original` unchanged. -/
theorem claim_C4_witness :
    (⟨['a', 'b'], ['a'], [(0, 1)]⟩ : NormalizedString).original =
      (NormalizedString.fromStr ['a', 'b']).original :=
  (claim_C4 (NormalizedString.fromStr ['a', 'b'])).2.1 (fun c => c == 'a') _ (by decide)

/-- Counterexample for C4 as stated: `merge_with` does mutate `original`,
appending `other.original`. -/
theorem claim_C4_counterexample :
    ((NormalizedString.fromStr ['a']).merge_with (NormalizedString.fromStr ['b'])).map
        NormalizedString.original ≠ some ['a'] := by decide

/-! ## Index-wise characterization of the transform engine (for C5) -/

theorem transformGo_fst {prev : List (Nat × Nat)} :
    ∀ (dest : List (Char × Int)) (index : Nat) (offset : Int)
      (cs : List Char) (als : List (Nat × Nat)),
      transformGo prev dest index offset = some (cs, als) →
      cs = dest.map Prod.fst := by
  intro dest
  induction dest with
  | nil =>
    intro index offset cs als h
    simp only [transformGo, Option.some_inj] at h
    have : cs = [] := (congrArg Prod.fst h).symm
    simp [this]
  | cons p rest ih =>
    intro index offset cs als h
    obtain ⟨c, change⟩ := p
    obtain ⟨a, cs', als', _, hrec, rfl, rfl⟩ := transformGo_cons_some h
    simp [ih (index + 1) (offset + change) cs' als' hrec]

theorem transformGo_get? {prev : List (Nat × Nat)} :
    ∀ (dest : List (Char × Int)) (index : Nat) (offset : Int)
      (cs : List Char) (als : List (Nat × Nat)),
      transformGo prev dest index offset = some (cs, als) →
      ∀ k : Nat, als.get? k = (dest.get? k).bind (fun p =>
        pickAlign prev p.2
          (((index + k : Nat) : Int) - (offset + sumChanges (dest.take k)))) := by
  intro dest
  induction dest with
  | nil =>
    intro index offset cs als h k
    simp only [transformGo, Option.some_inj] at h
    have hals : als = [] := (congrArg Prod.snd h).symm
    subst hals
    simp
  | cons p rest ih =>
    intro index offset cs als h k
    obtain ⟨c, change⟩ := p
    obtain ⟨a, cs', als', hpick, hrec, rfl, rfl⟩ := transformGo_cons_some h
    cases k with
    | zero =>
      have harg : ((index + 0 : Nat) : Int) -
          (offset + sumChanges (((c, change) :: rest).take 0)) =
          (index : Int) - offset := by
        simp [sumChanges]
      simp only [List.get?_cons_zero, Option.some_bind, harg]
      exact hpick.symm
    | succ k' =>
      have harg : ((index + (k' + 1) : Nat) : Int) -
          (offset + sumChanges (((c, change) :: rest).take (k' + 1))) =
          (((index + 1) + k' : Nat) : Int) -
            ((offset + change) + sumChanges (rest.take k')) := by
        simp only [List.take_succ_cons, sumChanges, List.map_cons, List.sum_cons]
        push_cast
        ring
      simp only [List.get?_cons_succ, harg]
      exact ih (index + 1) (offset + change) cs' als' hrec k'

/-- C5: `transform(dest, initial_offset)` computes each output alignment
from `idx = index - offset` (offset starting at `-initial_offset` and
incremented by each change): a positive change yields `(0, 0)` when
`idx < 1` and `previous_alignments[idx - 1]` otherwise; a zero or negative
change yields `previous_alignments[idx]`; the new normalized text is the
emitted chars and the alignment count equals its char count by
construction. -/
theorem claim_C5 : ∀ (ns : NormalizedString) (dest : List (Char × Int))
    (off : Nat) (ns' : NormalizedString),
    ns.transform dest off = some ns' →
    ns'.normalized = dest.map Prod.fst ∧
    ns'.alignments.length = ns'.normalized.length ∧
    (∀ k, (hk : k < dest.length) →
      (0 < (dest.get ⟨k, hk⟩).2 →
        (specIdx dest off k < 1 → ns'.alignments.get? k = some (0, 0)) ∧
        (1 ≤ specIdx dest off k →
          ns'.alignments.get? k =
            ns.alignments.get? ((specIdx dest off k).toNat - 1))) ∧
      ((dest.get ⟨k, hk⟩).2 ≤ 0 →
        ns'.alignments.get? k = ns.alignments.get? (specIdx dest off k).toNat)) := by
  intro ns dest off ns' ht
  unfold NormalizedString.transform at ht
  rw [Option.map_eq_some'] at ht
  obtain ⟨⟨cs, als⟩, hgo, rfl⟩ := ht
  obtain ⟨hl1, hl2⟩ := transformGo_lengths dest 0 _ cs als hgo
  refine ⟨transformGo_fst dest 0 _ cs als hgo, by simp [hl1, hl2], ?_⟩
  intro k hk
  have hkals : k < als.length := by omega
  have hget := transformGo_get? dest 0 _ cs als hgo k
  have harg : ((0 + k : Nat) : Int) - (-(off : Int) + sumChanges (dest.take k)) =
      specIdx dest off k := by
    simp only [specIdx]
    push_cast
    ring
  rw [List.get?_eq_some.mpr ⟨hk, rfl⟩, Option.some_bind, harg] at hget
  obtain ⟨a, ha⟩ : ∃ a, als.get? k = some a := ⟨als.get ⟨k, hkals⟩, List.get?_eq_get _⟩
  have hpa : pickAlign ns.alignments (dest.get ⟨k, hk⟩).2 (specIdx dest off k) = some a :=
    hget ▸ ha
  rcases pickAlign_some hpa with ⟨hpos, hidx0, rfl⟩ | ⟨hpos, hidx1, hprev⟩ |
    ⟨hnp, hidx0, hprev⟩
  · refine ⟨fun _ => ⟨fun _ => ha, fun h1 => absurd h1 (by omega)⟩, fun hle => ?_⟩
    exact absurd hle (by omega)
  · refine ⟨fun _ => ⟨fun hlt => absurd hlt (by omega), fun _ => ?_⟩, fun hle => ?_⟩
    · rw [ha, hprev]
    · exact absurd hle (by omega)
  · refine ⟨fun hpos => absurd hpos (by omega), fun _ => ?_⟩
    rw [ha, hprev]

/-- Witness for C5: a concrete one-item stream. -/
theorem claim_C5_witness :
    (⟨['a'], ['z'], [(0, 1)]⟩ : NormalizedString).normalized =
      [('z', (0 : Int))].map Prod.fst ∧
    (⟨['a'], ['z'], [(0, 1)]⟩ : NormalizedString).alignments.length =
      (⟨['a'], ['z'], [(0, 1)]⟩ : NormalizedString).normalized.length :=
  ⟨(claim_C5 (NormalizedString.fromStr ['a']) [('z', 0)] 0 ⟨['a'], ['z'], [(0, 1)]⟩
      (by decide)).1,
   (claim_C5 (NormalizedString.fromStr ['a']) [('z', 0)] 0 ⟨['a'], ['z'], [(0, 1)]⟩
      (by decide)).2.1⟩

end Tokenizers
